import Mathlib

/-!
# Consistent-hash ring of `src/hash/consistent.go`

A shallow embedding of package `consistent`: the ring is its `Nodes` slice, kept as a
list; `AddNode`, `RemoveNode`, `search` and `Get` are transcribed statement by statement.

The package calls three standard-library functions.

* `sort.Search` is transcribed below (`Search`), loop and all.
* `crc32.ChecksumIEEE` and `sort.Sort` are the fields of a record `Lib`, so that every theorem
  holds for whatever these two functions compute. `sort.Sort` is only assumed to meet its
  documented contract (`SortSpec`): the result is a rearrangement of the input in which no
  later element is `Less` than an earlier one. The order of elements with equal `HashId` is
  left open, as `sort.Sort` is not stable.
* `goLib` instantiates the record with the real CRC-32 (IEEE polynomial) and with the
  insertion sort that `sort.Sort` runs on slices of fewer than 12 elements; it is used to
  evaluate the code on concrete strings. `mockLib` is a fixed hash table that places the
  identifiers `A`, `B`, `C` at positions 10, 50, 90.

A Go run-time panic (index out of range) is the outcome `Result.panic`. The mutex is not
modelled: every operation is taken as one atomic step. Slice indices are natural numbers
(the `int` arithmetic of `sort.Search` cannot overflow on the length of a slice in memory).

`lowerBound`, `SortedByHash` and `pickIdx` are specification functions: they are not in
the source and serve to state the lemmas about `search` and `Get`. `Reachable` and
`ReachableFresh` describe the rings a caller can obtain through the three entry points.
-/

namespace consistent

/-! ## Outcomes -/

/-- Outcome of running a piece of the program: a value, a run-time panic (index out of
range), or exhaustion of the loop budget of the model. -/
inductive Result (α : Type) where
  | ok : α → Result α
  | panic : Result α
  | outOfFuel : Result α
deriving DecidableEq

/-- The package-level error values (`ErrNodeNotFound = errors.New("node not found")`). -/
inductive Error where
  | ErrNodeNotFound : Error
deriving DecidableEq

/-! ## Node, Nodes, Ring -/

/-- Type `Node` of the source: `Id string`, `HashId uint32`. -/
structure Node where
  Id : String
  HashId : Nat
deriving DecidableEq

/-- Type `Nodes []Node` of the source. -/
abbrev Nodes := List Node

/-- Method `Nodes.Len`. -/
def Nodes.Len (n : Nodes) : Nat := n.length

/-- Method `Nodes.Less`, applied to the two elements that the indices `i`, `j` select:
`n[i].HashId < n[j].HashId`. -/
def Less (a b : Node) : Bool := decide (a.HashId < b.HashId)

/-- Type `Ring` of the source, without the mutex. -/
structure Ring where
  Nodes : Nodes
deriving DecidableEq

/-! ## Standard-library functions -/

/-- The two library functions the package is parametric in: `crc32.ChecksumIEEE` on a
byte sequence, and `sort.Sort` on a slice with a given `Less`. -/
structure Lib where
  ChecksumIEEE : List Nat → Nat
  SortNodes : (Node → Node → Bool) → List Node → List Node

/-- Documented contract of `sort.Sort` for the `Less` of `Nodes`: the result is a
permutation of the input, in ascending order as determined by `Less`. -/
structure SortSpec (L : Lib) : Prop where
  perm : ∀ l : List Node, List.Perm (L.SortNodes Less l) l
  sorted : ∀ l : List Node, List.Pairwise (fun a b => Less b a = false) (L.SortNodes Less l)

/-- Loop of `sort.Search`: `for i < j { h := int(uint(i+j) >> 1); if !f(h) { i = h + 1 }
else { j = h } }; return i`, with a budget of iterations. -/
def searchLoop (f : Nat → Result Bool) : Nat → Nat → Nat → Result Nat
  | 0, i, j => if i < j then Result.outOfFuel else Result.ok i
  | fuel + 1, i, j =>
    if i < j then
      match f ((i + j) / 2) with
      | Result.ok false => searchLoop f fuel ((i + j) / 2 + 1) j
      | Result.ok true => searchLoop f fuel i ((i + j) / 2)
      | Result.panic => Result.panic
      | Result.outOfFuel => Result.outOfFuel
    else Result.ok i

/-- Function `sort.Search(n, f)`: `i, j := 0, n` and the loop; `n` iterations are more
than the loop ever takes. -/
def Search (n : Nat) (f : Nat → Result Bool) : Result Nat := searchLoop f n 0 n

/-- One step of the bitwise CRC-32 table construction (reflected polynomial
`0xedb88320`): `if crc&1 == 1 { crc = (crc >> 1) ^ poly } else { crc >>= 1 }`. -/
def crcBit (c : Nat) : Nat :=
  if c % 2 = 1 then (c / 2) ^^^ 0xedb88320 else c / 2

/-- Entry `i` of the IEEE table: eight `crcBit` steps from `i`. -/
def ieeeTable (i : Nat) : Nat := Nat.iterate crcBit 8 i

/-- One byte of the CRC-32 update: `crc = tab[byte(crc)^v] ^ (crc >> 8)`. -/
def crcByte (crc v : Nat) : Nat :=
  ieeeTable ((crc % 256) ^^^ (v % 256)) ^^^ (crc / 256)

/-- CRC-32 checksum with the IEEE polynomial: start from `^0`, fold the bytes, complement. -/
def crc32IEEE (data : List Nat) : Nat :=
  (data.foldl crcByte 0xffffffff) ^^^ 0xffffffff

/-- Inner loop of the library insertion sort, on the sorted prefix held in reverse:
`for j := i; j > a && data.Less(j, j-1); j-- { data.Swap(j, j-1) }`. -/
def sinkLeft (less : Node → Node → Bool) (x : Node) : List Node → List Node
  | [] => [x]
  | y :: ys => if less x y then y :: sinkLeft less x ys else x :: y :: ys

/-- Library insertion sort (`insertionSort(data, 0, n)`), which `sort.Sort` runs on a
slice of fewer than 12 elements. -/
def insertionSort (less : Node → Node → Bool) (l : List Node) : List Node :=
  (l.foldl (fun acc x => sinkLeft less x acc) []).reverse

/-- The library as the Go toolchain provides it, for slices of fewer than 12 nodes. -/
def goLib : Lib where
  ChecksumIEEE := crc32IEEE
  SortNodes := insertionSort

/-- A fixed hash table: the strings `A`, `B`, `C` are at 10, 50, 90 and the strings
`k10`, `k30`, `k70`, `k95` at 10, 30, 70, 95. -/
def mockChecksum : List Nat → Nat
  | [65] => 10
  | [66] => 50
  | [67] => 90
  | [107, 49, 48] => 10
  | [107, 51, 48] => 30
  | [107, 55, 48] => 70
  | [107, 57, 53] => 95
  | _ => 0

/-- The library with the fixed hash table in place of CRC-32. -/
def mockLib : Lib where
  ChecksumIEEE := mockChecksum
  SortNodes := insertionSort

/-! ## The package -/

/-- Conversion `[]byte(key)`: the bytes of the string. -/
def bytes (key : String) : List Nat := key.toUTF8.data.toList.map UInt8.toNat

/-- Function `hashId`: `crc32.ChecksumIEEE([]byte(key))`, a `uint32`. -/
def hashId (L : Lib) (key : String) : Nat := L.ChecksumIEEE (bytes key) % 2 ^ 32

/-- Function `NewNode`. -/
def NewNode (L : Lib) (id : String) : Node := { Id := id, HashId := hashId L id }

/-- Function `NewRing`. -/
def NewRing : Ring := { Nodes := [] }

/-- Method `Ring.AddNode`: append the new node, then `sort.Sort(r.Nodes)`. -/
def Ring.AddNode (L : Lib) (r : Ring) (id : String) : Ring :=
  { Nodes := L.SortNodes Less (r.Nodes ++ [NewNode L id]) }

/-- Closure `searchFn` of `Ring.search`: `r.Nodes[i].HashId >= hashId(id)`; indexing
outside the slice panics. -/
def Ring.searchFn (L : Lib) (r : Ring) (id : String) (i : Nat) : Result Bool :=
  match r.Nodes[i]? with
  | some nd => Result.ok (decide (nd.HashId ≥ hashId L id))
  | none => Result.panic

/-- Method `Ring.search`: `sort.Search(r.Nodes.Len(), searchFn)`. -/
def Ring.search (L : Lib) (r : Ring) (id : String) : Result Nat :=
  Search r.Nodes.Len (r.searchFn L id)

/-- Method `Ring.RemoveNode`: the ring after the call and the returned error
(`none` is `nil`). -/
def Ring.RemoveNode (L : Lib) (r : Ring) (id : String) : Result (Ring × Option Error) :=
  match r.search L id with
  | Result.ok i =>
    if i ≥ r.Nodes.Len then Result.ok (r, some Error.ErrNodeNotFound)
    else
      match r.Nodes[i]? with
      | none => Result.panic
      | some nd =>
        if nd.Id ≠ id then Result.ok (r, some Error.ErrNodeNotFound)
        else Result.ok ({ Nodes := r.Nodes.take i ++ r.Nodes.drop (i + 1) }, none)
  | Result.panic => Result.panic
  | Result.outOfFuel => Result.outOfFuel

/-- Method `Ring.Get`: `i := r.search(key); if i >= r.Nodes.Len() { i = 0 };
return r.Nodes[i].Id`. -/
def Ring.Get (L : Lib) (r : Ring) (key : String) : Result String :=
  match r.search L key with
  | Result.ok i =>
    match r.Nodes[if i ≥ r.Nodes.Len then 0 else i]? with
    | some nd => Result.ok nd.Id
    | none => Result.panic
  | Result.panic => Result.panic
  | Result.outOfFuel => Result.outOfFuel

/-- Rings reachable from `NewRing()` by calls of `AddNode` and `RemoveNode`; a call of
`RemoveNode` counts whether it returns `nil` or `ErrNodeNotFound`. -/
inductive Reachable (L : Lib) : Ring → Prop where
  | new : Reachable L NewRing
  | add (r : Ring) (id : String) : Reachable L r → Reachable L (r.AddNode L id)
  | remove (r r' : Ring) (id : String) (e : Option Error) :
      Reachable L r → r.RemoveNode L id = Result.ok (r', e) → Reachable L r'

/-- The ring built from `NewRing()` by `AddNode` on each identifier in order. -/
def build (L : Lib) (ids : List String) : Ring :=
  ids.foldl (fun r id => r.AddNode L id) NewRing

/-- Rings reachable from `NewRing()` when `AddNode` is only ever called with an identifier
that no current member has; `RemoveNode` is unrestricted. -/
inductive ReachableFresh (L : Lib) : Ring → Prop where
  | new : ReachableFresh L NewRing
  | add (r : Ring) (id : String) : ReachableFresh L r →
      (∀ nd, nd ∈ r.Nodes → nd.Id ≠ id) → ReachableFresh L (r.AddNode L id)
  | remove (r r' : Ring) (id : String) (e : Option Error) :
      ReachableFresh L r → r.RemoveNode L id = Result.ok (r', e) → ReachableFresh L r'

/-! ## Specification functions used in the proofs -/

/-- Position of the first node whose `HashId` is at least `t`, or the length when there
is none: the specification of the lower-bound search. -/
def lowerBound (t : Nat) : List Node → Nat
  | [] => 0
  | nd :: rest => if t ≤ nd.HashId then 0 else lowerBound t rest + 1

/-- Ascending order of the positions. -/
def SortedByHash (l : List Node) : Prop := l.Pairwise (fun a b => a.HashId ≤ b.HashId)

/-- Index that `Get` reads for a key at position `t`: the lower bound, or 0 when the
lower bound is the length. -/
def pickIdx (t : Nat) (l : List Node) : Nat :=
  if lowerBound t l ≥ l.length then 0 else lowerBound t l

/-! ## Lemmas -/

set_option maxRecDepth 100000

/-- Invariant of the `sort.Search` loop for a predicate that is monotone on `[0, n)`:
with a budget of at least `j - i` the loop returns a value `m`, everything below `m`
fails the predicate and everything from `m` on satisfies it. -/
theorem searchLoop_spec (f : Nat → Result Bool) (p : Nat → Bool) (n : Nat)
    (hf : ∀ h, h < n → f h = Result.ok (p h))
    (hmono : ∀ a b, a ≤ b → b < n → p a = true → p b = true) :
    ∀ fuel i j, i ≤ j → j ≤ n → j - i ≤ fuel →
      (∀ k, k < i → p k = false) → (∀ k, j ≤ k → k < n → p k = true) →
      ∃ m, searchLoop f fuel i j = Result.ok m ∧ m ≤ n ∧
        (∀ k, k < m → p k = false) ∧ (∀ k, m ≤ k → k < n → p k = true) := by
  intro fuel
  induction fuel with
  | zero =>
    intro i j hij hjn hfuel hlo hhi
    have : i = j := by omega
    subst this
    exact ⟨i, by simp [searchLoop], hjn, hlo, hhi⟩
  | succ fuel ih =>
    intro i j hij hjn hfuel hlo hhi
    by_cases hlt : i < j
    · have hh : (i + j) / 2 < n := by omega
      have hfh := hf _ hh
      cases hp : p ((i + j) / 2) with
      | false =>
        have := ih ((i + j) / 2 + 1) j (by omega) hjn (by omega)
          (by
            intro k hk
            by_contra hc
            have hk1 : p k = true := by simpa using hc
            have := hmono k ((i + j) / 2) (by omega) hh hk1
            simp [hp] at this) hhi
        simpa [searchLoop, hlt, hfh, hp] using this
      | true =>
        have := ih i ((i + j) / 2) (by omega) (by omega) (by omega) hlo
          (by
            intro k hk hkn
            exact hmono _ k hk hkn hp)
        simpa [searchLoop, hlt, hfh, hp] using this
    · have : i = j := by omega
      subst this
      exact ⟨i, by simp [searchLoop], hjn, hlo, hhi⟩

/-- The loop of `sort.Search` never exhausts a budget of `j - i` iterations and never
evaluates the predicate outside `[0, n)`, whatever the predicate. -/
theorem searchLoop_total (f : Nat → Result Bool) (p : Nat → Bool) (n : Nat)
    (hf : ∀ h, h < n → f h = Result.ok (p h)) :
    ∀ fuel i j, i ≤ j → j ≤ n → j - i ≤ fuel →
      ∃ m, searchLoop f fuel i j = Result.ok m ∧ i ≤ m ∧ m ≤ j := by
  intro fuel
  induction fuel with
  | zero =>
    intro i j hij hjn hfuel
    have : i = j := by omega
    subst this
    exact ⟨i, by simp [searchLoop], Nat.le_refl _, Nat.le_refl _⟩
  | succ fuel ih =>
    intro i j hij hjn hfuel
    by_cases hlt : i < j
    · have hh : (i + j) / 2 < n := by omega
      have hfh := hf _ hh
      cases hp : p ((i + j) / 2) with
      | false =>
        obtain ⟨m, hm, h1, h2⟩ := ih ((i + j) / 2 + 1) j (by omega) hjn (by omega)
        exact ⟨m, by simpa [searchLoop, hlt, hfh, hp] using hm, by omega, h2⟩
      | true =>
        obtain ⟨m, hm, h1, h2⟩ := ih i ((i + j) / 2) (by omega) (by omega) (by omega)
        exact ⟨m, by simpa [searchLoop, hlt, hfh, hp] using hm, h1, by omega⟩
    · have : i = j := by omega
      subst this
      exact ⟨i, by simp [searchLoop], Nat.le_refl _, Nat.le_refl _⟩

/-- On every ring `search` returns an index between 0 and the length, without a panic. -/
theorem search_total (L : Lib) (r : Ring) (id : String) :
    ∃ i, r.search L id = Result.ok i ∧ i ≤ r.Nodes.length := by
  obtain ⟨m, hm, _, h2⟩ := searchLoop_total (r.searchFn L id)
    (fun k => match r.Nodes[k]? with
      | some nd => decide (nd.HashId ≥ hashId L id)
      | none => false) r.Nodes.length
    (by
      intro h hh
      simp only [Ring.searchFn]
      rw [List.getElem?_eq_getElem hh])
    r.Nodes.length 0 r.Nodes.length (Nat.zero_le _) (Nat.le_refl _) (by omega)
  exact ⟨m, by simpa [Ring.search, Search, Nodes.Len] using hm, h2⟩

theorem lowerBound_le (t : Nat) (l : List Node) : lowerBound t l ≤ l.length := by
  induction l with
  | nil => simp [lowerBound]
  | cons a l ih =>
    simp only [lowerBound, List.length_cons]
    split <;> omega

/-- An index with only smaller positions before it and a position of at least `t` at it
(if any) is the lower bound. -/
theorem lowerBound_unique (t : Nat) : ∀ (l : List Node) (m : Nat), m ≤ l.length →
    (∀ k nd, k < m → l[k]? = some nd → nd.HashId < t) →
    (∀ nd, l[m]? = some nd → t ≤ nd.HashId) → m = lowerBound t l := by
  intro l
  induction l with
  | nil => intro m hm _ _; simpa [lowerBound] using hm
  | cons a l ih =>
    intro m hm hlo hhi
    cases m with
    | zero =>
      have := hhi a (by simp)
      simp [lowerBound, this]
    | succ m =>
      have h0 := hlo 0 a (by omega) (by simp)
      have := ih m (by simpa using hm)
        (fun k nd hk hnd => hlo (k + 1) nd (by omega) (by simpa using hnd))
        (fun nd hnd => hhi nd (by simpa using hnd))
      simp [lowerBound, Nat.not_le.mpr h0, this]

theorem lowerBound_below (t : Nat) : ∀ (l : List Node) (k : Nat) (nd : Node),
    k < lowerBound t l → l[k]? = some nd → nd.HashId < t := by
  intro l
  induction l with
  | nil => intro k nd hk; simp [lowerBound] at hk
  | cons a l ih =>
    intro k nd hk hnd
    by_cases ha : t ≤ a.HashId
    · simp [lowerBound, ha] at hk
    · cases k with
      | zero =>
        simp at hnd
        subst hnd
        omega
      | succ k =>
        simp only [lowerBound, ha, if_false] at hk
        exact ih k nd (by omega) (by simpa using hnd)

theorem lowerBound_at (t : Nat) : ∀ (l : List Node) (nd : Node),
    l[lowerBound t l]? = some nd → t ≤ nd.HashId := by
  intro l
  induction l with
  | nil => intro nd h; simp at h
  | cons a l ih =>
    intro nd hnd
    by_cases ha : t ≤ a.HashId
    · simp [lowerBound, ha] at hnd
      subst hnd
      exact ha
    · simp only [lowerBound, ha, if_false, List.getElem?_cons_succ] at hnd
      exact ih nd hnd

theorem lowerBound_lt_of_mem (t : Nat) : ∀ (l : List Node) (nd : Node),
    nd ∈ l → t ≤ nd.HashId → lowerBound t l < l.length := by
  intro l
  induction l with
  | nil => intro nd h; simp at h
  | cons a l ih =>
    intro nd hmem hnd
    by_cases ha : t ≤ a.HashId
    · simp [lowerBound, ha]
    · simp only [lowerBound, ha, if_false, List.length_cons]
      rcases List.mem_cons.mp hmem with h | h
      · subst h; exact absurd hnd ha
      · have := ih nd h hnd
        omega

theorem lowerBound_eq_length (t : Nat) : ∀ (l : List Node),
    (∀ nd, nd ∈ l → nd.HashId < t) → lowerBound t l = l.length := by
  intro l
  induction l with
  | nil => intro _; rfl
  | cons a l ih =>
    intro h
    have ha : ¬ t ≤ a.HashId := Nat.not_le.mpr (h a (by simp))
    simp [lowerBound, ha, ih (fun nd hnd => h nd (List.mem_cons_of_mem _ hnd))]

theorem sorted_getElem_le {l : List Node} (hs : SortedByHash l) {i j : Nat} {a b : Node}
    (hij : i ≤ j) (ha : l[i]? = some a) (hb : l[j]? = some b) : a.HashId ≤ b.HashId := by
  rcases Nat.eq_or_lt_of_le hij with h | h
  · subst h
    rw [ha] at hb
    cases hb
    exact Nat.le_refl _
  · obtain ⟨hi, rfl⟩ := List.getElem?_eq_some.mp ha
    obtain ⟨hj, rfl⟩ := List.getElem?_eq_some.mp hb
    exact (List.pairwise_iff_getElem.mp hs) i j hi hj h

/-- On a sorted ring `search` computes the lower bound of the hash of its argument. -/
theorem search_eq (L : Lib) (r : Ring) (id : String) (hs : SortedByHash r.Nodes) :
    r.search L id = Result.ok (lowerBound (hashId L id) r.Nodes) := by
  have hspec := searchLoop_spec (r.searchFn L id)
    (fun k => match r.Nodes[k]? with
      | some nd => decide (nd.HashId ≥ hashId L id)
      | none => false) r.Nodes.length
    (by
      intro h hh
      simp only [Ring.searchFn]
      rw [List.getElem?_eq_getElem hh])
    (by
      intro a b hab hb
      have ha : a < r.Nodes.length := by omega
      show (match r.Nodes[a]? with
        | some nd => decide (nd.HashId ≥ hashId L id)
        | none => false) = true →
        (match r.Nodes[b]? with
        | some nd => decide (nd.HashId ≥ hashId L id)
        | none => false) = true
      rw [List.getElem?_eq_getElem hb, List.getElem?_eq_getElem ha]
      simp only [decide_eq_true_eq]
      intro h
      exact Nat.le_trans h (sorted_getElem_le hs hab (List.getElem?_eq_getElem ha)
        (List.getElem?_eq_getElem hb)))
    r.Nodes.length 0 r.Nodes.length (Nat.zero_le _) (Nat.le_refl _) (by omega)
    (by intro k hk; omega) (by intro k h1 h2; omega)
  obtain ⟨m, hm, hmn, hlo, hhi⟩ := hspec
  have : m = lowerBound (hashId L id) r.Nodes := by
    apply lowerBound_unique _ _ _ hmn
    · intro k nd hk hnd
      have := hlo k hk
      simp only [hnd, decide_eq_false_iff_not] at this
      omega
    · intro nd hnd
      obtain ⟨hlt, _⟩ := List.getElem?_eq_some.mp hnd
      have := hhi m (Nat.le_refl _) hlt
      simpa [hnd] using this
  subst this
  simpa [Ring.search, Search, Nodes.Len] using hm

theorem less_eq_false_iff (a b : Node) : Less b a = false ↔ a.HashId ≤ b.HashId := by
  simp [Less]

theorem sinkLeft_perm (less : Node → Node → Bool) (x : Node) :
    ∀ l : List Node, List.Perm (sinkLeft less x l) (x :: l) := by
  intro l
  induction l with
  | nil => exact List.Perm.refl _
  | cons y ys ih =>
    simp only [sinkLeft]
    split
    · exact (List.Perm.cons y ih).trans (List.Perm.swap x y ys)
    · exact List.Perm.refl _

theorem sinkLeft_desc (x : Node) : ∀ l : List Node,
    List.Pairwise (fun a b => b.HashId ≤ a.HashId) l →
    List.Pairwise (fun a b => b.HashId ≤ a.HashId) (sinkLeft Less x l) := by
  intro l
  induction l with
  | nil => intro _; simp [sinkLeft]
  | cons y ys ih =>
    intro h
    simp only [sinkLeft]
    rw [List.pairwise_cons] at h
    by_cases hxy : Less x y = true
    · simp only [hxy, if_true]
      rw [List.pairwise_cons]
      refine ⟨?_, ih h.2⟩
      intro b hb
      have hb2 := (sinkLeft_perm Less x ys).subset hb
      rcases List.mem_cons.mp hb2 with hbx | hby
      · subst hbx
        simp [Less] at hxy
        omega
      · exact h.1 b hby
    · have hxy2 : Less x y = false := by simpa using hxy
      simp only [hxy2, Bool.false_eq_true, if_false]
      simp only [Less, decide_eq_false_iff_not, Nat.not_lt] at hxy2
      have hxy := hxy2
      rw [List.pairwise_cons]
      refine ⟨?_, List.pairwise_cons.mpr h⟩
      intro b hb
      rcases List.mem_cons.mp hb with hby | hbys
      · subst hby; exact hxy
      · exact Nat.le_trans (h.1 b hbys) hxy

theorem foldl_sinkLeft_perm (less : Node → Node → Bool) : ∀ (l acc : List Node),
    List.Perm (l.foldl (fun acc x => sinkLeft less x acc) acc) (l.reverse ++ acc) := by
  intro l
  induction l with
  | nil => intro acc; exact List.Perm.refl _
  | cons x xs ih =>
    intro acc
    simp only [List.foldl_cons, List.reverse_cons, List.append_assoc, List.singleton_append]
    exact (ih _).trans (List.Perm.append_left _ (sinkLeft_perm less x acc))

theorem foldl_sinkLeft_desc : ∀ (l acc : List Node),
    List.Pairwise (fun a b => b.HashId ≤ a.HashId) acc →
    List.Pairwise (fun a b => b.HashId ≤ a.HashId)
      (l.foldl (fun acc x => sinkLeft Less x acc) acc) := by
  intro l
  induction l with
  | nil => intro acc h; exact h
  | cons x xs ih =>
    intro acc h
    exact ih _ (sinkLeft_desc x acc h)

theorem insertionSort_perm (less : Node → Node → Bool) (l : List Node) :
    List.Perm (insertionSort less l) l := by
  unfold insertionSort
  refine (List.reverse_perm _).trans ?_
  refine (foldl_sinkLeft_perm less l []).trans ?_
  simp

theorem insertionSort_sorted (l : List Node) :
    List.Pairwise (fun a b => Less b a = false) (insertionSort Less l) := by
  unfold insertionSort
  rw [List.pairwise_reverse]
  have := foldl_sinkLeft_desc l [] List.Pairwise.nil
  exact this.imp (fun {a b} h => (less_eq_false_iff b a).mpr h)

/-- The library insertion sort meets the contract of `sort.Sort`. -/
theorem goLib_sortSpec : SortSpec goLib :=
  ⟨insertionSort_perm Less, insertionSort_sorted⟩

theorem mockLib_sortSpec : SortSpec mockLib :=
  ⟨insertionSort_perm Less, insertionSort_sorted⟩

theorem sorted_of_sortSpec {L : Lib} (hL : SortSpec L) (l : List Node) :
    SortedByHash (L.SortNodes Less l) :=
  (hL.sorted l).imp (fun {a b} h => (less_eq_false_iff a b).mp h)

/-- The two ways `RemoveNode` returns: unchanged ring with `ErrNodeNotFound`, or `nil`
after deleting the entry at the search index, whose `Id` is the argument. -/
theorem RemoveNode_cases (L : Lib) (r r' : Ring) (id : String) (e : Option Error)
    (h : r.RemoveNode L id = Result.ok (r', e)) :
    (r' = r ∧ e = some Error.ErrNodeNotFound) ∨
    ∃ i nd, r.search L id = Result.ok i ∧ r.Nodes[i]? = some nd ∧ nd.Id = id ∧
      r'.Nodes = r.Nodes.eraseIdx i ∧ e = none := by
  unfold Ring.RemoveNode at h
  split at h
  next i hi =>
    split at h
    · cases h; exact Or.inl ⟨rfl, rfl⟩
    · split at h
      · cases h
      next nd hnd =>
        split at h
        · cases h; exact Or.inl ⟨rfl, rfl⟩
        next hid =>
          cases h
          refine Or.inr ⟨i, nd, hi, hnd, ?_, ?_, rfl⟩
          · simpa using hid
          · simp [List.eraseIdx_eq_take_drop_succ]
  · cases h
  · cases h

/-- Every reachable ring is sorted by position. -/
theorem reachable_sorted {L : Lib} (hL : SortSpec L) {r : Ring} (hr : Reachable L r) :
    SortedByHash r.Nodes := by
  induction hr with
  | new => exact List.Pairwise.nil
  | add r id _ _ => exact sorted_of_sortSpec hL _
  | remove r r' id e _ hrem ih =>
    rcases RemoveNode_cases L r r' id e hrem with ⟨h, _⟩ | ⟨i, nd, _, _, _, h, _⟩
    · subst h; exact ih
    · unfold SortedByHash
      rw [h]
      exact List.Pairwise.sublist (List.eraseIdx_sublist _ _) ih

/-- Every member of a reachable ring sits at the hash of its identifier. -/
theorem reachable_position {L : Lib} (hL : SortSpec L) {r : Ring} (hr : Reachable L r) :
    ∀ nd, nd ∈ r.Nodes → nd.HashId = hashId L nd.Id := by
  induction hr with
  | new => intro nd h; simp [NewRing] at h
  | add r id _ ih =>
    intro nd hnd
    have := (hL.perm _).subset hnd
    rcases List.mem_append.mp this with h | h
    · exact ih nd h
    · simp at h; subst h; rfl
  | remove r r' id e _ hrem ih =>
    intro nd hnd
    rcases RemoveNode_cases L r r' id e hrem with ⟨h, _⟩ | ⟨i, nd', _, _, _, h, _⟩
    · subst h; exact ih nd hnd
    · rw [h] at hnd
      exact ih nd ((List.eraseIdx_sublist _ _).subset hnd)

/-- On a sorted ring `Get` reads the entry at the lower bound, or entry 0 when the lower
bound is the length. -/
theorem Get_eq (L : Lib) (r : Ring) (key : String) (hs : SortedByHash r.Nodes) :
    r.Get L key =
      match r.Nodes[if lowerBound (hashId L key) r.Nodes ≥ r.Nodes.length then 0
        else lowerBound (hashId L key) r.Nodes]? with
      | some nd => Result.ok nd.Id
      | none => Result.panic := by
  simp only [Ring.Get, search_eq L r key hs, Nodes.Len]

theorem reachable_foldl (L : Lib) : ∀ (ids : List String) (r : Ring), Reachable L r →
    Reachable L (ids.foldl (fun r id => r.AddNode L id) r) := by
  intro ids
  induction ids with
  | nil => intro r hr; exact hr
  | cons id ids ih => intro r hr; exact ih _ (Reachable.add r id hr)

theorem reachable_build (L : Lib) (ids : List String) : Reachable L (build L ids) :=
  reachable_foldl L ids NewRing Reachable.new

theorem lowerBound_eraseIdx_of_lt (t : Nat) : ∀ (l : List Node) (i : Nat),
    i < lowerBound t l → lowerBound t (l.eraseIdx i) = lowerBound t l - 1 := by
  intro l
  induction l with
  | nil => intro i h; simp [lowerBound] at h
  | cons a l ih =>
    intro i h
    by_cases ha : t ≤ a.HashId
    · simp [lowerBound, ha] at h
    · simp only [lowerBound, ha, if_false] at h
      cases i with
      | zero => simp [lowerBound, ha]
      | succ i =>
        have hi : i < lowerBound t l := by omega
        simp only [List.eraseIdx_cons_succ, lowerBound, ha, if_false, ih i hi]
        omega

theorem lowerBound_eraseIdx_of_ge (t : Nat) : ∀ (l : List Node) (i : Nat),
    SortedByHash l → lowerBound t l ≤ i → lowerBound t (l.eraseIdx i) = lowerBound t l := by
  intro l
  induction l with
  | nil => intro i _ _; simp
  | cons a l ih =>
    intro i hs h
    have hs2 := List.pairwise_cons.mp hs
    by_cases ha : t ≤ a.HashId
    · cases i with
      | zero =>
        cases l with
        | nil => simp [lowerBound, ha]
        | cons b l =>
          have hb : t ≤ b.HashId := Nat.le_trans ha (hs2.1 b (by simp))
          simp [lowerBound, ha, hb]
      | succ i => simp [lowerBound, ha]
    · simp only [lowerBound, ha, if_false] at h
      cases i with
      | zero => omega
      | succ i =>
        simp only [List.eraseIdx_cons_succ, lowerBound, ha, if_false,
          ih i hs2.2 (by omega)]

/-- Deleting an index other than the one a key resolves to leaves the key on the same
entry. -/
theorem pick_eraseIdx_of_ne (t : Nat) (l : List Node) (i : Nat) (hs : SortedByHash l)
    (hi : i < l.length) (h2 : 2 ≤ l.length) (hne : pickIdx t l ≠ i) :
    (l.eraseIdx i)[pickIdx t (l.eraseIdx i)]? = l[pickIdx t l]? := by
  have hlen : (l.eraseIdx i).length = l.length - 1 := List.length_eraseIdx_of_lt hi
  have hle := lowerBound_le t l
  unfold pickIdx at hne ⊢
  rw [hlen]
  rcases Nat.lt_or_ge i (lowerBound t l) with hlt | hge
  · rw [lowerBound_eraseIdx_of_lt t l i hlt]
    by_cases hfull : lowerBound t l ≥ l.length
    · have h1 : lowerBound t l - 1 ≥ l.length - 1 := by omega
      simp only [hfull, h1, if_true] at hne ⊢
      rw [List.getElem?_eraseIdx_of_lt l i 0 (by omega)]
    · have h1 : ¬ lowerBound t l - 1 ≥ l.length - 1 := by omega
      simp only [hfull, h1, if_false]
      rw [List.getElem?_eraseIdx_of_ge l i _ (by omega)]
      congr 1
      omega
  · rw [lowerBound_eraseIdx_of_ge t l i hs hge]
    have hfull : ¬ lowerBound t l ≥ l.length := by omega
    simp only [hfull, if_false] at hne ⊢
    have h1 : ¬ lowerBound t l ≥ l.length - 1 := by omega
    simp only [h1, if_false]
    rw [List.getElem?_eraseIdx_of_lt l i _ (by omega)]

/-- Deleting the index a key resolves to moves the key to the next entry in ring order. -/
theorem pick_eraseIdx_of_eq (t : Nat) (l : List Node) (i : Nat) (hs : SortedByHash l)
    (hi : i < l.length) (h2 : 2 ≤ l.length) (heq : pickIdx t l = i) :
    (l.eraseIdx i)[pickIdx t (l.eraseIdx i)]? =
      l[if i + 1 = l.length then 0 else i + 1]? := by
  have hlen : (l.eraseIdx i).length = l.length - 1 := List.length_eraseIdx_of_lt hi
  have hle := lowerBound_le t l
  unfold pickIdx at heq ⊢
  rw [hlen]
  by_cases hfull : lowerBound t l ≥ l.length
  · simp only [hfull, if_true] at heq
    subst heq
    rw [lowerBound_eraseIdx_of_lt t l 0 (by omega)]
    have h1 : lowerBound t l - 1 ≥ l.length - 1 := by omega
    have h3 : ¬ 0 + 1 = l.length := by omega
    simp only [h1, if_true, h3, if_false]
    rw [List.getElem?_eraseIdx_of_ge l 0 0 (Nat.le_refl _)]
  · simp only [hfull, if_false] at heq
    rw [lowerBound_eraseIdx_of_ge t l i hs (by omega), heq]
    by_cases hlast : i + 1 = l.length
    · have h1 : i ≥ l.length - 1 := by omega
      simp only [h1, if_true, hlast]
      rw [List.getElem?_eraseIdx_of_lt l i 0 (by omega)]
    · have h1 : ¬ i ≥ l.length - 1 := by omega
      simp only [h1, if_false, hlast]
      rw [List.getElem?_eraseIdx_of_ge l i i (Nat.le_refl _)]

theorem Get_eq_pick (L : Lib) (r : Ring) (key : String) (hs : SortedByHash r.Nodes) :
    r.Get L key =
      match r.Nodes[pickIdx (hashId L key) r.Nodes]? with
      | some nd => Result.ok nd.Id
      | none => Result.panic := Get_eq L r key hs

theorem RemoveNode_ok_cases (L : Lib) (r r' : Ring) (id : String)
    (hs : SortedByHash r.Nodes) (h : r.RemoveNode L id = Result.ok (r', none)) :
    ∃ nd : Node, r.Nodes[lowerBound (hashId L id) r.Nodes]? = some nd ∧ nd.Id = id ∧
      r'.Nodes = r.Nodes.eraseIdx (lowerBound (hashId L id) r.Nodes) := by
  rcases RemoveNode_cases L r r' id none h with ⟨_, h⟩ | ⟨i, nd, hi, hnd, hid, hr', _⟩
  · cases h
  · rw [search_eq L r id hs] at hi
    cases hi
    exact ⟨nd, hnd, hid, hr'⟩

theorem pickIdx_lt (t : Nat) (l : List Node) (h : 0 < l.length) : pickIdx t l < l.length := by
  unfold pickIdx
  split <;> omega

theorem sorted_eraseIdx {l : List Node} (hs : SortedByHash l) (i : Nat) :
    SortedByHash (l.eraseIdx i) :=
  List.Pairwise.sublist (List.eraseIdx_sublist l i) hs

/-- On a one-element ring `Get` returns the element, whatever the key. -/
theorem Get_single (L : Lib) (nd : Node) (key : String) :
    Ring.Get L { Nodes := [nd] } key = Result.ok nd.Id := by
  by_cases h : nd.HashId ≥ hashId L key <;>
    simp [Ring.Get, Ring.search, Search, searchLoop, Ring.searchFn, Nodes.Len, h]

theorem reachable_of_fresh {L : Lib} {r : Ring} (hr : ReachableFresh L r) : Reachable L r := by
  induction hr with
  | new => exact Reachable.new
  | add r id _ _ ih => exact Reachable.add r id ih
  | remove r r' id e _ hrem ih => exact Reachable.remove r r' id e ih hrem

/-- Rings built by adding only fresh identifiers have pairwise different identifiers. -/
theorem fresh_nodup {L : Lib} (hL : SortSpec L) {r : Ring} (hr : ReachableFresh L r) :
    (r.Nodes.map Node.Id).Nodup := by
  induction hr with
  | new => simp [NewRing]
  | add r id _ hfresh ih =>
    have hp : List.Perm ((r.AddNode L id).Nodes.map Node.Id)
        ((r.Nodes ++ [NewNode L id]).map Node.Id) := (hL.perm _).map Node.Id
    rw [hp.nodup_iff, List.map_append, List.nodup_append]
    refine ⟨ih, by simp, ?_⟩
    intro a ha hb
    simp only [List.map_cons, List.map_nil, List.mem_singleton, NewNode] at hb
    obtain ⟨nd, hnd, hndid⟩ := List.mem_map.mp ha
    exact hfresh nd hnd (by rw [hndid, hb])
  | remove r r' id e _ hrem ih =>
    rcases RemoveNode_cases L r r' id e hrem with ⟨h, _⟩ | ⟨i, nd, _, _, _, h, _⟩
    · subst h; exact ih
    · rw [h]
      exact List.Nodup.sublist ((List.eraseIdx_sublist _ _).map Node.Id) ih

/-- The entry `Get` reads on a sorted non-empty ring: a member at the least position that
is at least `t` when there is one, and a member at the least position of all otherwise. -/
theorem pick_spec (t : Nat) (l : List Node) (hs : SortedByHash l) (hpos : 0 < l.length) :
    ∃ n, l[pickIdx t l]? = some n ∧ n ∈ l ∧
      ((∃ m, m ∈ l ∧ t ≤ m.HashId) →
        t ≤ n.HashId ∧ ∀ m, m ∈ l → t ≤ m.HashId → n.HashId ≤ m.HashId) ∧
      ((∀ m, m ∈ l → m.HashId < t) → ∀ m, m ∈ l → n.HashId ≤ m.HashId) := by
  have hlt := pickIdx_lt t l hpos
  have hget := List.getElem?_eq_getElem hlt
  refine ⟨l[pickIdx t l], hget, List.getElem_mem hlt, ?_, ?_⟩
  · rintro ⟨m0, hm0, hm0t⟩
    have hlb := lowerBound_lt_of_mem t l m0 hm0 hm0t
    have hidx : pickIdx t l = lowerBound t l := by
      unfold pickIdx
      simp only [ge_iff_le, Nat.not_le.mpr hlb, if_false]
    have hget2 : l[lowerBound t l]? = some l[pickIdx t l] := by rw [← hidx]; exact hget
    refine ⟨lowerBound_at t l _ hget2, ?_⟩
    intro m hm hmt
    obtain ⟨k, hk, hkeq⟩ := List.getElem_of_mem hm
    have hkm : l[k]? = some m := by rw [List.getElem?_eq_getElem hk, hkeq]
    have hkge : lowerBound t l ≤ k := by
      by_contra hc
      have := lowerBound_below t l k m (by omega) hkm
      omega
    exact sorted_getElem_le hs hkge hget2 hkm
  · intro hall m hm
    have hidx : pickIdx t l = 0 := by
      unfold pickIdx
      simp [lowerBound_eq_length t l hall]
    obtain ⟨k, hk, hkeq⟩ := List.getElem_of_mem hm
    have hkm : l[k]? = some m := by rw [List.getElem?_eq_getElem hk, hkeq]
    have hget0 : l[0]? = some l[pickIdx t l] := by rw [← hidx]; exact hget
    exact sorted_getElem_le hs (Nat.zero_le k) hget0 hkm

theorem foldl_addNode_perm {L : Lib} (hL : SortSpec L) : ∀ (ids : List String) (r : Ring),
    List.Perm (ids.foldl (fun r id => r.AddNode L id) r).Nodes
      (r.Nodes ++ ids.map (NewNode L)) := by
  intro ids
  induction ids with
  | nil => intro r; simp
  | cons id ids ih =>
    intro r
    simp only [List.foldl_cons, List.map_cons]
    refine (ih (r.AddNode L id)).trans ?_
    have hp : List.Perm (r.AddNode L id).Nodes (r.Nodes ++ [NewNode L id]) := hL.perm _
    have := hp.append_right (ids.map (NewNode L))
    simpa using this

theorem build_perm {L : Lib} (hL : SortSpec L) (ids : List String) :
    List.Perm (build L ids).Nodes (ids.map (NewNode L)) := by
  have := foldl_addNode_perm hL ids NewRing
  simpa [build, NewRing] using this

theorem map_eq_of_injOn {f : Node → Nat} : ∀ (l₁ l₂ : List Node),
    (∀ a b, a ∈ l₁ → b ∈ l₂ → f a = f b → a = b) → l₁.map f = l₂.map f → l₁ = l₂ := by
  intro l₁
  induction l₁ with
  | nil =>
    intro l₂ _ h
    cases l₂ with
    | nil => rfl
    | cons b l₂ => simp at h
  | cons a l₁ ih =>
    intro l₂ hinj h
    cases l₂ with
    | nil => simp at h
    | cons b l₂ =>
      simp only [List.map_cons, List.cons.injEq] at h
      have hab := hinj a b (by simp) (by simp) h.1
      subst hab
      rw [ih l₂ (fun x y hx hy => hinj x y (List.mem_cons_of_mem _ hx)
        (List.mem_cons_of_mem _ hy)) h.2]

/-- Two sorted arrangements of the same nodes coincide when nodes at the same position
are equal. -/
theorem sorted_perm_unique (l₁ l₂ : List Node) (hp : List.Perm l₁ l₂)
    (h₁ : SortedByHash l₁) (h₂ : SortedByHash l₂)
    (hinj : ∀ a b, a ∈ l₁ → b ∈ l₁ → a.HashId = b.HashId → a = b) : l₁ = l₂ := by
  apply map_eq_of_injOn (f := Node.HashId) l₁ l₂
  · intro a b ha hb hab
    exact hinj a b ha (hp.symm.subset hb) hab
  · have s₁ : List.Sorted LE.le (l₁.map Node.HashId) := List.pairwise_map.mpr h₁
    have s₂ : List.Sorted LE.le (l₂.map Node.HashId) := List.pairwise_map.mpr h₂
    exact List.eq_of_perm_of_sorted (hp.map Node.HashId) s₁ s₂

/-! ## The claims -/

/-- C1: on a ring reachable from `NewRing()` by `AddNode`/`RemoveNode`, for a key such that
some member has `HashId >= hashId(key)`, `Get(key)` returns the `Id` of the member at the
smallest index `i` with `Nodes[i].HashId >= hashId(key)`: every member before index `i` has
a strictly smaller `HashId`. -/
theorem get_first_at_or_after (L : Lib) (hL : SortSpec L) (r : Ring) (hr : Reachable L r)
    (key : String) (hex : ∃ nd, nd ∈ r.Nodes ∧ hashId L key ≤ nd.HashId) :
    ∃ (i : Nat) (nd : Node), r.Nodes[i]? = some nd ∧ hashId L key ≤ nd.HashId ∧
      (∀ (j : Nat) (nj : Node), j < i → r.Nodes[j]? = some nj → nj.HashId < hashId L key) ∧
      r.Get L key = Result.ok nd.Id := by
  obtain ⟨nd0, hmem, hge⟩ := hex
  have hs := reachable_sorted hL hr
  have hlt := lowerBound_lt_of_mem (hashId L key) r.Nodes nd0 hmem hge
  have hget := List.getElem?_eq_getElem hlt
  refine ⟨lowerBound (hashId L key) r.Nodes, r.Nodes[lowerBound (hashId L key) r.Nodes],
    hget, lowerBound_at _ _ _ hget, ?_, ?_⟩
  · intro j nj hj hnj
    exact lowerBound_below _ _ j nj hj hnj
  · rw [Get_eq L r key hs]
    simp only [ge_iff_le, Nat.not_le.mpr hlt, if_false, hget]

/-- Witness of C1: members `A`, `B`, `C` at positions 10, 50, 90; the key at position 30
resolves to `B` and the key at position 10 resolves to `A`. -/
theorem get_first_at_or_after_witness :
    SortSpec mockLib ∧ Reachable mockLib (build mockLib ["A", "B", "C"]) ∧
    (build mockLib ["A", "B", "C"]).Nodes = [⟨"A", 10⟩, ⟨"B", 50⟩, ⟨"C", 90⟩] ∧
    hashId mockLib "k30" = 30 ∧ hashId mockLib "k10" = 10 ∧
    (∃ (i : Nat) (nd : Node), (build mockLib ["A", "B", "C"]).Nodes[i]? = some nd ∧
      hashId mockLib "k30" ≤ nd.HashId ∧
      (∀ (j : Nat) (nj : Node), j < i → (build mockLib ["A", "B", "C"]).Nodes[j]? = some nj →
        nj.HashId < hashId mockLib "k30") ∧
      (build mockLib ["A", "B", "C"]).Get mockLib "k30" = Result.ok nd.Id) ∧
    (build mockLib ["A", "B", "C"]).Get mockLib "k30" = Result.ok "B" ∧
    (build mockLib ["A", "B", "C"]).Get mockLib "k10" = Result.ok "A" :=
  ⟨mockLib_sortSpec, reachable_build mockLib _, by decide, by decide, by decide,
    get_first_at_or_after mockLib mockLib_sortSpec (build mockLib ["A", "B", "C"])
      (reachable_build mockLib _) "k30"
      ⟨⟨"C", 90⟩, by decide, by decide⟩,
    by decide, by decide⟩

/-- C2 (wraparound): on a reachable non-empty ring, for a key whose hash is strictly
greater than the `HashId` of every member, `Get(key)` returns the `Id` of the member at
index 0, and no member has a smaller position than that member. -/
theorem get_wraparound (L : Lib) (hL : SortSpec L) (r : Ring) (hr : Reachable L r)
    (hne : r.Nodes ≠ []) (key : String)
    (hgt : ∀ nd, nd ∈ r.Nodes → nd.HashId < hashId L key) :
    ∃ n0 : Node, r.Nodes[0]? = some n0 ∧ r.Get L key = Result.ok n0.Id ∧
      ∀ nd, nd ∈ r.Nodes → n0.HashId ≤ nd.HashId := by
  have hs := reachable_sorted hL hr
  have hpos : 0 < r.Nodes.length := List.length_pos.mpr hne
  have h0 := List.getElem?_eq_getElem hpos
  refine ⟨r.Nodes[0], h0, ?_, ?_⟩
  · rw [Get_eq L r key hs, lowerBound_eq_length _ _ hgt]
    simp only [ge_iff_le, Nat.le_refl, if_true, h0]
  · intro nd hnd
    obtain ⟨k, hk, rfl⟩ := List.getElem_of_mem hnd
    exact sorted_getElem_le hs (Nat.zero_le k) h0 (List.getElem?_eq_getElem hk)

/-- Witness of C2: members `A`, `B`, `C` at positions 10, 50, 90; the key at position 95
resolves to `A`. -/
theorem get_wraparound_witness :
    SortSpec mockLib ∧ Reachable mockLib (build mockLib ["C", "A", "B"]) ∧
    (build mockLib ["C", "A", "B"]).Nodes = [⟨"A", 10⟩, ⟨"B", 50⟩, ⟨"C", 90⟩] ∧
    hashId mockLib "k95" = 95 ∧
    (∃ n0 : Node, (build mockLib ["C", "A", "B"]).Nodes[0]? = some n0 ∧
      (build mockLib ["C", "A", "B"]).Get mockLib "k95" = Result.ok n0.Id ∧
      ∀ nd, nd ∈ (build mockLib ["C", "A", "B"]).Nodes → n0.HashId ≤ nd.HashId) ∧
    (build mockLib ["C", "A", "B"]).Get mockLib "k95" = Result.ok "A" :=
  ⟨mockLib_sortSpec, reachable_build mockLib _, by decide, by decide,
    get_wraparound mockLib mockLib_sortSpec (build mockLib ["C", "A", "B"])
      (reachable_build mockLib _) (by decide) "k95"
      (by decide),
    by decide⟩

/-- C3 (sortedness invariant): on every ring reachable from `NewRing()` by a finite
sequence of `AddNode` and `RemoveNode` calls, successful or failing, adjacent members are
in ascending order of `HashId`: `Nodes[i].HashId <= Nodes[i+1].HashId`. -/
theorem reachable_sorted_adjacent (L : Lib) (hL : SortSpec L) (r : Ring)
    (hr : Reachable L r) (i : Nat) (a b : Node)
    (ha : r.Nodes[i]? = some a) (hb : r.Nodes[i + 1]? = some b) :
    a.HashId ≤ b.HashId :=
  sorted_getElem_le (reachable_sorted hL hr) (Nat.le_succ i) ha hb

/-- Witness of C3: with the real CRC-32 the identifiers `A`, `B`, `C` added in this order
end up as `C`, `B`, `A`; the entries at indices 0 and 1 are in ascending order. -/
theorem reachable_sorted_adjacent_witness :
    SortSpec goLib ∧ Reachable goLib (build goLib ["A", "B", "C"]) ∧
    (build goLib ["A", "B", "C"]).Nodes[0]? = some ⟨"C", 1037565863⟩ ∧
    (build goLib ["A", "B", "C"]).Nodes[0 + 1]? = some ⟨"B", 1255198513⟩ ∧
    (Node.mk "C" 1037565863).HashId ≤ (Node.mk "B" 1255198513).HashId :=
  ⟨goLib_sortSpec, reachable_build goLib _, by decide, by decide,
    reachable_sorted_adjacent goLib goLib_sortSpec (build goLib ["A", "B", "C"])
      (reachable_build goLib _) 0 ⟨"C", 1037565863⟩ ⟨"B", 1255198513⟩ (by decide) (by decide)⟩

/-- C4 (minimal disruption on removal): on a reachable ring, if `RemoveNode(id)` succeeds
and leaves at least one member, and `Get(k)` before the removal was not `id`, then `Get(k)`
returns a value before the removal and returns the same value after it. -/
theorem remove_minimal_disruption (L : Lib) (hL : SortSpec L) (r r' : Ring)
    (hr : Reachable L r) (id key : String)
    (hrem : r.RemoveNode L id = Result.ok (r', none)) (hne : r'.Nodes ≠ [])
    (hget : r.Get L key ≠ Result.ok id) :
    ∃ v : String, r.Get L key = Result.ok v ∧ r'.Get L key = Result.ok v := by
  have hs := reachable_sorted hL hr
  obtain ⟨nd, hnd, hid, hr'⟩ := RemoveNode_ok_cases L r r' id hs hrem
  obtain ⟨hi, _⟩ := List.getElem?_eq_some.mp hnd
  have hlen' : r'.Nodes.length = r.Nodes.length - 1 := by
    rw [hr']; exact List.length_eraseIdx_of_lt hi
  have hpos' : 0 < r'.Nodes.length := List.length_pos.mpr hne
  have h2 : 2 ≤ r.Nodes.length := by omega
  have hs' : SortedByHash r'.Nodes := by rw [hr']; exact sorted_eraseIdx hs _
  have hpne : pickIdx (hashId L key) r.Nodes ≠ lowerBound (hashId L id) r.Nodes := by
    intro hc
    apply hget
    rw [Get_eq_pick L r key hs, hc, hnd]
    simp only [hid]
  have hpick := pick_eraseIdx_of_ne (hashId L key) r.Nodes _ hs hi h2 hpne
  rw [← hr'] at hpick
  obtain ⟨w, hsome⟩ : ∃ w : Node, r.Nodes[pickIdx (hashId L key) r.Nodes]? = some w :=
    ⟨_, List.getElem?_eq_getElem (pickIdx_lt (hashId L key) r.Nodes (by omega))⟩
  refine ⟨w.Id, ?_, ?_⟩
  · rw [Get_eq_pick L r key hs, hsome]
  · rw [Get_eq_pick L r' key hs', hpick, hsome]

/-- Witness of C4: members `A`, `B`, `C` at 10, 50, 90; removing `B` leaves the key at
position 95 on `A`. -/
theorem remove_minimal_disruption_witness :
    SortSpec mockLib ∧ Reachable mockLib (build mockLib ["A", "B", "C"]) ∧
    (build mockLib ["A", "B", "C"]).RemoveNode mockLib "B" =
      Result.ok (build mockLib ["A", "C"], none) ∧
    (build mockLib ["A", "C"]).Nodes ≠ [] ∧
    (build mockLib ["A", "B", "C"]).Get mockLib "k95" ≠ Result.ok "B" ∧
    (∃ v : String, (build mockLib ["A", "B", "C"]).Get mockLib "k95" = Result.ok v ∧
      (build mockLib ["A", "C"]).Get mockLib "k95" = Result.ok v) ∧
    (build mockLib ["A", "C"]).Get mockLib "k95" = Result.ok "A" :=
  ⟨mockLib_sortSpec, reachable_build mockLib _, by decide, by decide, by decide,
    remove_minimal_disruption mockLib mockLib_sortSpec (build mockLib ["A", "B", "C"])
      (build mockLib ["A", "C"]) (reachable_build mockLib _) "B" "k95" (by decide)
      (by decide) (by decide),
    by decide⟩

/-- C5 (reassignment to the successor): on a reachable ring with at least two members, if
`RemoveNode(id)` succeeds by removing the entry at index `i`, then a key whose lookup
resolved to that entry (its lower-bound index is `i`, or the lookup wrapped around and
`i = 0`) resolves after the removal to the `Id` of the entry that followed it in ring
order: the old entry at index `i+1`, or the old entry at index 0 when `i` was the last
index. -/
theorem remove_reassigns_to_successor (L : Lib) (hL : SortSpec L) (r r' : Ring)
    (hr : Reachable L r) (h2 : 2 ≤ r.Nodes.length) (id key : String) (i : Nat)
    (hsearch : r.search L id = Result.ok i)
    (hrem : r.RemoveNode L id = Result.ok (r', none))
    (hkey : r.search L key = Result.ok i ∨
      (r.search L key = Result.ok r.Nodes.length ∧ i = 0)) :
    ∃ removed next : Node, r.Nodes[i]? = some removed ∧ removed.Id = id ∧
      r.Get L key = Result.ok id ∧
      r.Nodes[if i + 1 = r.Nodes.length then 0 else i + 1]? = some next ∧
      r'.Get L key = Result.ok next.Id := by
  have hs := reachable_sorted hL hr
  obtain ⟨nd, hnd, hid, hr'⟩ := RemoveNode_ok_cases L r r' id hs hrem
  rw [search_eq L r id hs] at hsearch
  cases hsearch
  obtain ⟨hi, _⟩ := List.getElem?_eq_some.mp hnd
  have hs' : SortedByHash r'.Nodes := by rw [hr']; exact sorted_eraseIdx hs _
  have hpeq : pickIdx (hashId L key) r.Nodes = lowerBound (hashId L id) r.Nodes := by
    rw [search_eq L r key hs] at hkey
    unfold pickIdx
    rcases hkey with h | ⟨h, h0⟩
    · have heq := Result.ok.inj h
      rw [heq]
      simp only [ge_iff_le, Nat.not_le.mpr hi, if_false]
    · have heq := Result.ok.inj h
      rw [heq, h0]
      simp
  have hpick := pick_eraseIdx_of_eq (hashId L key) r.Nodes _ hs hi h2 hpeq
  rw [← hr'] at hpick
  have hnext : (if lowerBound (hashId L id) r.Nodes + 1 = r.Nodes.length then 0
      else lowerBound (hashId L id) r.Nodes + 1) < r.Nodes.length := by
    split <;> omega
  obtain ⟨w, hsome⟩ : ∃ w : Node,
      r.Nodes[if lowerBound (hashId L id) r.Nodes + 1 = r.Nodes.length then 0
        else lowerBound (hashId L id) r.Nodes + 1]? = some w :=
    ⟨_, List.getElem?_eq_getElem hnext⟩
  refine ⟨nd, w, hnd, hid, ?_, hsome, ?_⟩
  · rw [Get_eq_pick L r key hs, hpeq, hnd]
    simp only [hid]
  · rw [Get_eq_pick L r' key hs', hpick, hsome]

/-- Witness of C5: members `A`, `B`, `C` at 10, 50, 90. Removing `A` (index 0) moves the
key at 95, which wrapped around to `A`, to `B`; removing `B` moves the key at 30 to `C`;
removing `C` (the last index) moves the key at 70 to `A`. -/
theorem remove_reassigns_to_successor_witness :
    SortSpec mockLib ∧ Reachable mockLib (build mockLib ["A", "B", "C"]) ∧
    2 ≤ (build mockLib ["A", "B", "C"]).Nodes.length ∧
    (build mockLib ["A", "B", "C"]).search mockLib "A" = Result.ok 0 ∧
    (build mockLib ["A", "B", "C"]).RemoveNode mockLib "A" =
      Result.ok (build mockLib ["B", "C"], none) ∧
    (build mockLib ["A", "B", "C"]).search mockLib "k95" = Result.ok 3 ∧
    (∃ removed next : Node, (build mockLib ["A", "B", "C"]).Nodes[0]? = some removed ∧
      removed.Id = "A" ∧
      (build mockLib ["A", "B", "C"]).Get mockLib "k95" = Result.ok "A" ∧
      (build mockLib ["A", "B", "C"]).Nodes[if 0 + 1 =
        (build mockLib ["A", "B", "C"]).Nodes.length then 0 else 0 + 1]? = some next ∧
      (build mockLib ["B", "C"]).Get mockLib "k95" = Result.ok next.Id) ∧
    (build mockLib ["B", "C"]).Get mockLib "k95" = Result.ok "B" ∧
    (build mockLib ["A", "B", "C"]).Get mockLib "k30" = Result.ok "B" ∧
    (build mockLib ["A", "C"]).Get mockLib "k30" = Result.ok "C" ∧
    (build mockLib ["A", "B", "C"]).Get mockLib "k70" = Result.ok "C" ∧
    (build mockLib ["A", "B"]).Get mockLib "k70" = Result.ok "A" :=
  ⟨mockLib_sortSpec, reachable_build mockLib _, by decide, by decide, by decide, by decide,
    remove_reassigns_to_successor mockLib mockLib_sortSpec (build mockLib ["A", "B", "C"])
      (build mockLib ["B", "C"]) (reachable_build mockLib _) (by decide) "A" "k95" 0
      (by decide) (by decide) (Or.inr ⟨by decide, rfl⟩),
    by decide, by decide, by decide, by decide, by decide⟩

/-- C6, evaluated on the code: the identifiers `plumless` and `buckeroo` have the same
CRC-32. After `AddNode("plumless")` and `AddNode("buckeroo")` the ring holds both, yet
`RemoveNode("buckeroo")` returns `ErrNodeNotFound` and leaves the ring as it was: the
search lands on `plumless`, the first entry at that position. -/
theorem removeNode_misses_colliding_member :
    Reachable goLib (build goLib ["plumless", "buckeroo"]) ∧
    (build goLib ["plumless", "buckeroo"]).Nodes =
      [⟨"plumless", 1306201125⟩, ⟨"buckeroo", 1306201125⟩] ∧
    (∃ nd : Node, nd ∈ (build goLib ["plumless", "buckeroo"]).Nodes ∧ nd.Id = "buckeroo") ∧
    (build goLib ["plumless", "buckeroo"]).RemoveNode goLib "buckeroo" =
      Result.ok (build goLib ["plumless", "buckeroo"], some Error.ErrNodeNotFound) :=
  ⟨reachable_build goLib _, by decide, ⟨⟨"buckeroo", 1306201125⟩, by decide, rfl⟩, by decide⟩

/-- C7 (removal of a non-member): on a reachable ring, the empty ring included, for an
`id` that is not the identifier of any member, `RemoveNode(id)` runs without a panic,
returns `ErrNodeNotFound`, and leaves the member sequence unchanged. -/
theorem remove_nonmember_fails (L : Lib) (hL : SortSpec L) (r : Ring) (hr : Reachable L r)
    (id : String) (hnot : ∀ nd, nd ∈ r.Nodes → nd.Id ≠ id) :
    r.RemoveNode L id = Result.ok (r, some Error.ErrNodeNotFound) := by
  have hs := reachable_sorted hL hr
  unfold Ring.RemoveNode
  rw [search_eq L r id hs]
  by_cases hge : lowerBound (hashId L id) r.Nodes ≥ r.Nodes.Len
  · simp only [hge, if_true]
  · have hlt : lowerBound (hashId L id) r.Nodes < r.Nodes.length := by
      simpa [Nodes.Len] using hge
    have hne := hnot _ (List.getElem_mem hlt)
    simp only [hge, if_false, List.getElem?_eq_getElem hlt, ne_eq, hne, not_false_eq_true,
      if_true]

/-- Witness of C7: on the ring `A`, `B`, `C` at 10, 50, 90 the identifier `k95` is not a
member and its search index is the length 3; also the empty ring, and an identifier whose
search index is inside the ring. -/
theorem remove_nonmember_fails_witness :
    SortSpec mockLib ∧ Reachable mockLib (build mockLib ["A", "B", "C"]) ∧
    (∀ nd, nd ∈ (build mockLib ["A", "B", "C"]).Nodes → nd.Id ≠ "k95") ∧
    (build mockLib ["A", "B", "C"]).search mockLib "k95" = Result.ok 3 ∧
    (build mockLib ["A", "B", "C"]).RemoveNode mockLib "k95" =
      Result.ok (build mockLib ["A", "B", "C"], some Error.ErrNodeNotFound) ∧
    (build mockLib ["A", "B", "C"]).RemoveNode mockLib "k30" =
      Result.ok (build mockLib ["A", "B", "C"], some Error.ErrNodeNotFound) ∧
    NewRing.RemoveNode goLib "x" = Result.ok (NewRing, some Error.ErrNodeNotFound) :=
  ⟨mockLib_sortSpec, reachable_build mockLib _, by decide, by decide,
    remove_nonmember_fails mockLib mockLib_sortSpec (build mockLib ["A", "B", "C"])
      (reachable_build mockLib _) "k95" (by decide),
    by decide, by decide⟩

/-- C8: if `RemoveNode(id)` returns success, the new member sequence is the old one with
exactly the entry at one index `i` deleted, that entry has `Id` equal to `id`, the entries
before and after it keep their order, and the length decreases by exactly 1. This holds
on every ring, reachable or not. -/
theorem remove_success_deletes_one (L : Lib) (r r' : Ring) (id : String)
    (hrem : r.RemoveNode L id = Result.ok (r', none)) :
    ∃ (i : Nat) (nd : Node), r.Nodes[i]? = some nd ∧ nd.Id = id ∧
      r'.Nodes = r.Nodes.take i ++ r.Nodes.drop (i + 1) ∧
      r'.Nodes.length + 1 = r.Nodes.length := by
  rcases RemoveNode_cases L r r' id none hrem with ⟨_, h⟩ | ⟨i, nd, _, hnd, hid, hr', _⟩
  · cases h
  · obtain ⟨hi, _⟩ := List.getElem?_eq_some.mp hnd
    refine ⟨i, nd, hnd, hid, ?_, ?_⟩
    · rw [hr', List.eraseIdx_eq_take_drop_succ]
    · rw [hr', List.length_eraseIdx_of_lt hi]
      omega

/-- Witness of C8: `plumless` and `buckeroo` share a hash position; `RemoveNode("plumless")`
removes the entry `plumless` and keeps `buckeroo`. -/
theorem remove_success_deletes_one_witness :
    (build goLib ["plumless", "buckeroo"]).RemoveNode goLib "plumless" =
      Result.ok (build goLib ["buckeroo"], none) ∧
    (∃ (i : Nat) (nd : Node), (build goLib ["plumless", "buckeroo"]).Nodes[i]? = some nd ∧
      nd.Id = "plumless" ∧
      (build goLib ["buckeroo"]).Nodes = (build goLib ["plumless", "buckeroo"]).Nodes.take i ++
        (build goLib ["plumless", "buckeroo"]).Nodes.drop (i + 1) ∧
      (build goLib ["buckeroo"]).Nodes.length + 1 =
        (build goLib ["plumless", "buckeroo"]).Nodes.length) ∧
    (build goLib ["buckeroo"]).Nodes = [⟨"buckeroo", 1306201125⟩] :=
  ⟨by decide,
    remove_success_deletes_one goLib (build goLib ["plumless", "buckeroo"])
      (build goLib ["buckeroo"]) "plumless" (by decide),
    by decide⟩

/-- C9, evaluated on the code: on the reachable ring holding `plumless`, the call
`AddNode("buckeroo")` followed by `RemoveNode("buckeroo")` returns `ErrNodeNotFound`, not
success, and leaves two members where there was one. -/
theorem add_remove_round_trip_fails :
    Reachable goLib (build goLib ["plumless"]) ∧
    (build goLib ["plumless"]).Nodes.map Node.Id = ["plumless"] ∧
    ((build goLib ["plumless"]).AddNode goLib "buckeroo").RemoveNode goLib "buckeroo" =
      Result.ok ((build goLib ["plumless"]).AddNode goLib "buckeroo",
        some Error.ErrNodeNotFound) ∧
    ((build goLib ["plumless"]).AddNode goLib "buckeroo").Nodes.map Node.Id =
      ["plumless", "buckeroo"] :=
  ⟨reachable_build goLib _, by decide, by decide, by decide⟩

/-- C10 (single-node invariance): on a ring with exactly one member, `Get` returns that
member's identifier for every key; in particular on `NewRing()` followed by
`AddNode(id)`, `Get` returns `id` for every key. -/
theorem get_single_node (L : Lib) (hL : SortSpec L) :
    (∀ (r : Ring) (nd : Node) (key : String), r.Nodes = [nd] →
      r.Get L key = Result.ok nd.Id) ∧
    (∀ id key : String, (NewRing.AddNode L id).Get L key = Result.ok id) := by
  constructor
  · intro r nd key h
    cases r with
    | mk ns =>
      simp only at h
      subst h
      exact Get_single L nd key
  · intro id key
    have hp := hL.perm (NewRing.Nodes ++ [NewNode L id])
    have h1 : L.SortNodes Less (NewRing.Nodes ++ [NewNode L id]) = [NewNode L id] := by
      simpa [NewRing] using hp
    have : NewRing.AddNode L id = { Nodes := [NewNode L id] } := by
      simp only [Ring.AddNode, h1]
    rw [this]
    exact Get_single L (NewNode L id) key

/-- Witness of C10: with the real CRC-32, the ring holding only `x` answers `x` for the
keys `x`, `plumless` and the empty string. -/
theorem get_single_node_witness :
    SortSpec goLib ∧
    ((∀ (r : Ring) (nd : Node) (key : String), r.Nodes = [nd] →
      r.Get goLib key = Result.ok nd.Id) ∧
    (∀ id key : String, (NewRing.AddNode goLib id).Get goLib key = Result.ok id)) ∧
    (NewRing.AddNode goLib "x").Get goLib "plumless" = Result.ok "x" ∧
    (NewRing.AddNode goLib "x").Get goLib "" = Result.ok "x" :=
  ⟨goLib_sortSpec, get_single_node goLib goLib_sortSpec, by decide, by decide⟩

/-- C11, on the code: `Get("x")` on the ring returned by `NewRing()` does not fail with a
`RingEmpty` value; the search returns 0, the index stays 0, and `r.Nodes[0]` on the empty
slice is an index-out-of-range panic. -/
theorem get_empty_ring_panics : NewRing.Get goLib "x" = Result.panic := by decide

/-- C11 as amended: `Get` has no error result, hence no `RingEmpty` value; on `NewRing()`
and on any ring with zero members, `Get(key)` returns no node identifier, whatever the
key. -/
theorem get_empty_no_identifier (L : Lib) (r : Ring) (key : String) (h : r.Nodes = [])
    (v : String) : r.Get L key ≠ Result.ok v := by
  cases r with
  | mk ns =>
    simp only at h
    subst h
    simp [Ring.Get, Ring.search, Search, searchLoop, Nodes.Len]

/-- Witness of C11 as amended: the ring of `NewRing()` has zero members and `Get("x")`
does not return the identifier `x`. -/
theorem get_empty_no_identifier_witness :
    NewRing.Nodes = [] ∧ NewRing.Get goLib "x" ≠ Result.ok "x" :=
  ⟨rfl, get_empty_no_identifier goLib NewRing "x" rfl "x"⟩

/-- C12: for every ring and every `id`, the member sequence after `AddNode(id)` is a
permutation of the old members plus the one new entry `Node{Id: id, HashId: hashId(id)}`;
the length grows by exactly 1 and the number of entries with identifier `id` grows by
exactly 1, so that adding the same identifier twice adds two entries. -/
theorem addNode_adds_one_entry (L : Lib) (hL : SortSpec L) (r : Ring) (id : String) :
    List.Perm (r.AddNode L id).Nodes (r.Nodes ++ [NewNode L id]) ∧
    (r.AddNode L id).Nodes.length = r.Nodes.length + 1 ∧
    (r.AddNode L id).Nodes.countP (fun nd => decide (nd.Id = id)) =
      r.Nodes.countP (fun nd => decide (nd.Id = id)) + 1 ∧
    ((r.AddNode L id).AddNode L id).Nodes.countP (fun nd => decide (nd.Id = id)) =
      r.Nodes.countP (fun nd => decide (nd.Id = id)) + 2 := by
  have hp : ∀ s : Ring, List.Perm (s.AddNode L id).Nodes (s.Nodes ++ [NewNode L id]) :=
    fun s => hL.perm _
  have hc : ∀ s : Ring, (s.AddNode L id).Nodes.countP (fun nd => decide (nd.Id = id)) =
      s.Nodes.countP (fun nd => decide (nd.Id = id)) + 1 := by
    intro s
    rw [(hp s).countP_eq, List.countP_append]
    simp [NewNode]
  refine ⟨hp r, ?_, hc r, ?_⟩
  · rw [(hp r).length_eq]
    simp
  · rw [hc (r.AddNode L id), hc r]

/-- Witness of C12: with the real CRC-32, `AddNode("x")` twice on `NewRing()` gives two
entries `x`. -/
theorem addNode_adds_one_entry_witness :
    SortSpec goLib ∧
    (List.Perm (NewRing.AddNode goLib "x").Nodes (NewRing.Nodes ++ [NewNode goLib "x"]) ∧
    (NewRing.AddNode goLib "x").Nodes.length = NewRing.Nodes.length + 1 ∧
    (NewRing.AddNode goLib "x").Nodes.countP (fun nd => decide (nd.Id = "x")) =
      NewRing.Nodes.countP (fun nd => decide (nd.Id = "x")) + 1 ∧
    ((NewRing.AddNode goLib "x").AddNode goLib "x").Nodes.countP
        (fun nd => decide (nd.Id = "x")) =
      NewRing.Nodes.countP (fun nd => decide (nd.Id = "x")) + 2) ∧
    ((NewRing.AddNode goLib "x").AddNode goLib "x").Nodes =
      [⟨"x", 2363233923⟩, ⟨"x", 2363233923⟩] :=
  ⟨goLib_sortSpec, addNode_adds_one_entry goLib goLib_sortSpec NewRing "x", by decide⟩

/-- C15 (position invariant): every member `n` of a ring reachable from `NewRing()` by
`AddNode`/`RemoveNode` satisfies `n.HashId = hashId(n.Id)`; `hashId` is a function of the
identifier with values below `2^32`, so members with the same identifier have the same
position. -/
theorem reachable_position_invariant (L : Lib) (hL : SortSpec L) (r : Ring)
    (hr : Reachable L r) (nd : Node) (hnd : nd ∈ r.Nodes) :
    nd.HashId = hashId L nd.Id ∧ hashId L nd.Id < 2 ^ 32 ∧
    ∀ m, m ∈ r.Nodes → m.Id = nd.Id → m.HashId = nd.HashId := by
  refine ⟨reachable_position hL hr nd hnd, Nat.mod_lt _ (by decide), ?_⟩
  intro m hm hid
  rw [reachable_position hL hr nd hnd, reachable_position hL hr m hm, hid]

/-- Witness of C15: with the real CRC-32, the member `plumless` of the ring built from
`plumless` and `buckeroo` sits at `hashId("plumless") = 1306201125`. -/
theorem reachable_position_invariant_witness :
    SortSpec goLib ∧ Reachable goLib (build goLib ["plumless", "buckeroo"]) ∧
    (Node.mk "plumless" 1306201125) ∈ (build goLib ["plumless", "buckeroo"]).Nodes ∧
    ((Node.mk "plumless" 1306201125).HashId = hashId goLib (Node.mk "plumless" 1306201125).Id ∧
      hashId goLib (Node.mk "plumless" 1306201125).Id < 2 ^ 32 ∧
      ∀ m, m ∈ (build goLib ["plumless", "buckeroo"]).Nodes →
        m.Id = (Node.mk "plumless" 1306201125).Id →
        m.HashId = (Node.mk "plumless" 1306201125).HashId) :=
  ⟨goLib_sortSpec, reachable_build goLib _, by decide,
    reachable_position_invariant goLib goLib_sortSpec (build goLib ["plumless", "buckeroo"])
      (reachable_build goLib _) ⟨"plumless", 1306201125⟩ (by decide)⟩

/-- C18 (a node owns its own identifier): on a reachable ring, for a member identifier
`id` such that no member with a different identifier has the hash position of `id`,
`Get(id)` returns `id`. -/
theorem get_own_identifier (L : Lib) (hL : SortSpec L) (r : Ring) (hr : Reachable L r)
    (id : String) (hmem : ∃ nd, nd ∈ r.Nodes ∧ nd.Id = id)
    (hno : ∀ nd, nd ∈ r.Nodes → nd.HashId = hashId L id → nd.Id = id) :
    r.Get L id = Result.ok id := by
  obtain ⟨nd, hnd, hid⟩ := hmem
  have hs := reachable_sorted hL hr
  have hpos : nd.HashId = hashId L id := by rw [reachable_position hL hr nd hnd, hid]
  have hlt := lowerBound_lt_of_mem (hashId L id) r.Nodes nd hnd (Nat.le_of_eq hpos.symm)
  have hget := List.getElem?_eq_getElem hlt
  have hge := lowerBound_at _ _ _ hget
  obtain ⟨k, hk, hkeq⟩ := List.getElem_of_mem hnd
  have hknd : r.Nodes[k]? = some nd := by rw [List.getElem?_eq_getElem hk, hkeq]
  have hkge : lowerBound (hashId L id) r.Nodes ≤ k := by
    by_contra hc
    have := lowerBound_below (hashId L id) r.Nodes k nd (by omega) hknd
    omega
  have hle := sorted_getElem_le hs hkge hget hknd
  have hId := hno _ (List.getElem_mem hlt) (by omega)
  rw [Get_eq L r id hs]
  simp only [ge_iff_le, Nat.not_le.mpr hlt, if_false, hget, hId]

/-- Witness of C18: `NewRing()`, `AddNode("x")`, then `Get("x")` returns `x`, with the real
CRC-32. -/
theorem get_own_identifier_witness :
    SortSpec goLib ∧ Reachable goLib (build goLib ["x"]) ∧
    (∃ nd, nd ∈ (build goLib ["x"]).Nodes ∧ nd.Id = "x") ∧
    (∀ nd, nd ∈ (build goLib ["x"]).Nodes → nd.HashId = hashId goLib "x" → nd.Id = "x") ∧
    (build goLib ["x"]).Get goLib "x" = Result.ok "x" :=
  ⟨goLib_sortSpec, reachable_build goLib _, ⟨⟨"x", 2363233923⟩, by decide, rfl⟩, by decide,
    get_own_identifier goLib goLib_sortSpec (build goLib ["x"]) (reachable_build goLib _) "x"
      ⟨⟨"x", 2363233923⟩, by decide, rfl⟩ (by decide)⟩

/-- C19: on a ring with at least one member, reachable or not, for every key the search
returns an index, the index `Get` then uses (0 when the search index is the length) is
within bounds, `Get` does not panic, and the string it returns is the identifier of a
current member of the ring. -/
theorem get_in_bounds (L : Lib) (r : Ring) (key : String) (hne : r.Nodes ≠ []) :
    ∃ i, r.search L key = Result.ok i ∧
      (if i ≥ r.Nodes.Len then 0 else i) < r.Nodes.Len ∧
      ∃ nd, nd ∈ r.Nodes ∧ r.Get L key = Result.ok nd.Id := by
  obtain ⟨i, hi, hle⟩ := search_total L r key
  have hpos : 0 < r.Nodes.length := List.length_pos.mpr hne
  have hj : (if i ≥ r.Nodes.Len then 0 else i) < r.Nodes.length := by
    simp only [Nodes.Len]
    split <;> omega
  refine ⟨i, hi, hj, r.Nodes[if i ≥ r.Nodes.Len then 0 else i], List.getElem_mem hj, ?_⟩
  simp only [Ring.Get, hi, List.getElem?_eq_getElem hj]

/-- Witness of C19: on the ring `A`, `B`, `C` at 10, 50, 90 the key at 95 has search index
3, the length; `Get` uses index 0 and returns `A`. -/
theorem get_in_bounds_witness :
    (build mockLib ["A", "B", "C"]).Nodes ≠ [] ∧
    (∃ i, (build mockLib ["A", "B", "C"]).search mockLib "k95" = Result.ok i ∧
      (if i ≥ (build mockLib ["A", "B", "C"]).Nodes.Len then 0 else i) <
        (build mockLib ["A", "B", "C"]).Nodes.Len ∧
      ∃ nd, nd ∈ (build mockLib ["A", "B", "C"]).Nodes ∧
        (build mockLib ["A", "B", "C"]).Get mockLib "k95" = Result.ok nd.Id) ∧
    (build mockLib ["A", "B", "C"]).search mockLib "k95" = Result.ok 3 ∧
    (build mockLib ["A", "B", "C"]).Get mockLib "k95" = Result.ok "A" :=
  ⟨by decide, get_in_bounds mockLib (build mockLib ["A", "B", "C"]) "k95" (by decide),
    by decide, by decide⟩

/-- C13, on the code: `AddNode("x")` twice from `NewRing()` is a reachable ring with two
entries of identifier `x` at the same position; the second call is neither rejected nor a
no-op. -/
theorem duplicate_id_two_entries :
    Reachable goLib (build goLib ["x", "x"]) ∧
    (build goLib ["x", "x"]).Nodes = [⟨"x", 2363233923⟩, ⟨"x", 2363233923⟩] ∧
    ¬ ((build goLib ["x", "x"]).Nodes.map Node.Id).Nodup ∧
    (build goLib ["x"]).AddNode goLib "x" ≠ build goLib ["x"] :=
  ⟨reachable_build goLib _, by decide, by decide, by decide⟩

/-- C13 as amended: on every ring reachable from `NewRing()` by `AddNode`/`RemoveNode`
calls in which `AddNode` is only called with an identifier that no current member has, no
two members have the same identifier. `AddNode` itself has no duplicate guard: on any
reachable ring, called with the identifier of a member, it leaves at least two entries
identical to that member. -/
theorem unique_ids_when_added_fresh (L : Lib) (hL : SortSpec L) :
    (∀ r : Ring, ReachableFresh L r → (r.Nodes.map Node.Id).Nodup) ∧
    (∀ r : Ring, Reachable L r → ∀ nd, nd ∈ r.Nodes →
      2 ≤ (r.AddNode L nd.Id).Nodes.count nd) := by
  refine ⟨fun r hr => fresh_nodup hL hr, ?_⟩
  intro r hr nd hnd
  have hpos := reachable_position hL hr nd hnd
  have hnew : NewNode L nd.Id = nd := by
    cases nd with
    | mk i h => simp only [NewNode] at hpos ⊢; rw [← hpos]
  have hp : List.Perm (r.AddNode L nd.Id).Nodes (r.Nodes ++ [NewNode L nd.Id]) := hL.perm _
  rw [hp.count_eq, hnew, List.count_append]
  have h1 : 0 < r.Nodes.count nd := List.count_pos_iff.mpr hnd
  have h2 : [nd].count nd = 1 := by simp
  omega

/-- Witness of C13 as amended: `A` then `B` are added fresh, with the real CRC-32; the
identifiers of the ring are pairwise different, and `AddNode("A")` on it leaves two
entries `A`. -/
theorem unique_ids_when_added_fresh_witness :
    SortSpec goLib ∧ ReachableFresh goLib (build goLib ["A", "B"]) ∧
    ((build goLib ["A", "B"]).Nodes.map Node.Id).Nodup ∧
    (Node.mk "A" 3554254475) ∈ (build goLib ["A", "B"]).Nodes ∧
    2 ≤ ((build goLib ["A", "B"]).AddNode goLib "A").Nodes.count (Node.mk "A" 3554254475) ∧
    (build goLib ["A", "B"]).Nodes.map Node.Id = ["B", "A"] ∧
    ((build goLib ["A", "B"]).AddNode goLib "A").Nodes.map Node.Id = ["B", "A", "A"] :=
  ⟨goLib_sortSpec,
    ReachableFresh.add _ "B" (ReachableFresh.add _ "A" ReachableFresh.new (by decide))
      (by decide),
    (unique_ids_when_added_fresh goLib goLib_sortSpec).1 (build goLib ["A", "B"])
      (ReachableFresh.add _ "B" (ReachableFresh.add _ "A" ReachableFresh.new (by decide))
        (by decide)),
    by decide,
    (unique_ids_when_added_fresh goLib goLib_sortSpec).2 (build goLib ["A", "B"])
      (reachable_build goLib _) ⟨"A", 3554254475⟩ (by decide),
    by decide, by decide⟩

/-- C14 (minimal disruption on addition): on a reachable non-empty ring in which no two
members with different identifiers share a hash position, for every `id` and every key
`k`, `Get(k)` returns a value before and after `AddNode(id)`, and the value after is
either the value before or `id`. -/
theorem add_minimal_disruption (L : Lib) (hL : SortSpec L) (r : Ring) (hr : Reachable L r)
    (hne : r.Nodes ≠ [])
    (hinj : ∀ a, a ∈ r.Nodes → ∀ b, b ∈ r.Nodes → a.Id ≠ b.Id → a.HashId ≠ b.HashId)
    (id key : String) :
    ∃ v w : String, r.Get L key = Result.ok v ∧ (r.AddNode L id).Get L key = Result.ok w ∧
      (w = v ∨ w = id) := by
  have hs := reachable_sorted hL hr
  have hs' : SortedByHash (r.AddNode L id).Nodes := sorted_of_sortSpec hL _
  have hp : List.Perm (r.AddNode L id).Nodes (r.Nodes ++ [NewNode L id]) := hL.perm _
  have hpos : 0 < r.Nodes.length := List.length_pos.mpr hne
  have hpos' : 0 < (r.AddNode L id).Nodes.length := by
    rw [hp.length_eq]; simp
  have hsub : ∀ m, m ∈ r.Nodes → m ∈ (r.AddNode L id).Nodes :=
    fun m hm => hp.symm.subset (List.mem_append_left _ hm)
  obtain ⟨n, hn, hnmem, hnge, hnall⟩ := pick_spec (hashId L key) r.Nodes hs hpos
  obtain ⟨n', hn', hnmem', hnge', hnall'⟩ :=
    pick_spec (hashId L key) (r.AddNode L id).Nodes hs' hpos'
  refine ⟨n.Id, n'.Id, ?_, ?_, ?_⟩
  · rw [Get_eq_pick L r key hs, hn]
  · rw [Get_eq_pick L (r.AddNode L id) key hs', hn']
  · rcases List.mem_append.mp (hp.subset hnmem') with hold | hnew
    · left
      have hpeq : n'.HashId = n.HashId := by
        by_cases hex : ∃ m, m ∈ r.Nodes ∧ hashId L key ≤ m.HashId
        · obtain ⟨hnt, hnmin⟩ := hnge hex
          obtain ⟨m, hm, hmt⟩ := hex
          obtain ⟨hnt', hnmin'⟩ := hnge' ⟨m, hsub m hm, hmt⟩
          have h1 := hnmin' n (hsub n hnmem) hnt
          have h2 := hnmin n' hold hnt'
          omega
        · have hall : ∀ m, m ∈ r.Nodes → m.HashId < hashId L key := by
            intro m hm
            by_contra hc
            exact hex ⟨m, hm, by omega⟩
          have hlt := hall n' hold
          have hall' : ∀ m, m ∈ (r.AddNode L id).Nodes → m.HashId < hashId L key := by
            intro m hm
            by_contra hc
            have := (hnge' ⟨m, hm, by omega⟩).1
            omega
          have h1 := hnall' hall' n (hsub n hnmem)
          have h2 := hnall hall n' hold
          omega
      by_contra hid
      exact hinj n' hold n hnmem hid hpeq
    · right
      simp only [List.mem_singleton] at hnew
      rw [hnew]
      rfl

/-- Witness of C14: members `A`, `B`, `C` at 10, 50, 90; after `AddNode("k70")`, a node at
position 70, the key at 70 moves from `C` to the new node and the key at 30 stays on `B`. -/
theorem add_minimal_disruption_witness :
    SortSpec mockLib ∧ Reachable mockLib (build mockLib ["A", "B", "C"]) ∧
    (build mockLib ["A", "B", "C"]).Nodes ≠ [] ∧
    (∀ a, a ∈ (build mockLib ["A", "B", "C"]).Nodes →
      ∀ b, b ∈ (build mockLib ["A", "B", "C"]).Nodes → a.Id ≠ b.Id → a.HashId ≠ b.HashId) ∧
    (∃ v w : String, (build mockLib ["A", "B", "C"]).Get mockLib "k70" = Result.ok v ∧
      ((build mockLib ["A", "B", "C"]).AddNode mockLib "k70").Get mockLib "k70" = Result.ok w ∧
      (w = v ∨ w = "k70")) ∧
    (build mockLib ["A", "B", "C"]).Get mockLib "k70" = Result.ok "C" ∧
    ((build mockLib ["A", "B", "C"]).AddNode mockLib "k70").Get mockLib "k70" =
      Result.ok "k70" ∧
    (build mockLib ["A", "B", "C"]).Get mockLib "k30" = Result.ok "B" ∧
    ((build mockLib ["A", "B", "C"]).AddNode mockLib "k70").Get mockLib "k30" = Result.ok "B" :=
  ⟨mockLib_sortSpec, reachable_build mockLib _, by decide, by decide,
    add_minimal_disruption mockLib mockLib_sortSpec (build mockLib ["A", "B", "C"])
      (reachable_build mockLib _) (by decide) (by decide) "k70" "k70",
    by decide, by decide, by decide, by decide⟩

/-- C17 (insertion-order independence): for two lists of identifiers that are
permutations of each other and in which different identifiers have different hashes, the
rings built from `NewRing()` by `AddNode` on each list in order have the same member
sequence, and so return the same `Get(key)` for every key. -/
theorem build_order_independent (L : Lib) (hL : SortSpec L) (ids₁ ids₂ : List String)
    (hp : List.Perm ids₁ ids₂)
    (hinj : ∀ a, a ∈ ids₁ → ∀ b, b ∈ ids₁ → a ≠ b → hashId L a ≠ hashId L b) :
    (build L ids₁).Nodes = (build L ids₂).Nodes ∧
    ∀ key : String, (build L ids₁).Get L key = (build L ids₂).Get L key := by
  have hnodes : (build L ids₁).Nodes = (build L ids₂).Nodes := by
    apply sorted_perm_unique
    · exact (build_perm hL ids₁).trans ((hp.map (NewNode L)).trans (build_perm hL ids₂).symm)
    · exact reachable_sorted hL (reachable_build L ids₁)
    · exact reachable_sorted hL (reachable_build L ids₂)
    · intro a b ha hb hab
      obtain ⟨ia, hia, rfl⟩ := List.mem_map.mp ((build_perm hL ids₁).subset ha)
      obtain ⟨ib, hib, rfl⟩ := List.mem_map.mp ((build_perm hL ids₁).subset hb)
      by_cases hiab : ia = ib
      · rw [hiab]
      · exact absurd hab (hinj ia hia ib hib hiab)
  refine ⟨hnodes, ?_⟩
  intro key
  have hring : build L ids₁ = build L ids₂ := by
    cases h₁ : build L ids₁ with
    | mk n₁ =>
      cases h₂ : build L ids₂ with
      | mk n₂ =>
        rw [h₁, h₂] at hnodes
        simp only at hnodes
        rw [hnodes]
  rw [hring]

/-- Witness of C17: with the real CRC-32, adding `A`, `B`, `C` or `C`, `A`, `B` gives the
same ring `C`, `B`, `A`. -/
theorem build_order_independent_witness :
    SortSpec goLib ∧ List.Perm ["A", "B", "C"] ["C", "A", "B"] ∧
    (∀ a, a ∈ ["A", "B", "C"] → ∀ b, b ∈ ["A", "B", "C"] → a ≠ b →
      hashId goLib a ≠ hashId goLib b) ∧
    ((build goLib ["A", "B", "C"]).Nodes = (build goLib ["C", "A", "B"]).Nodes ∧
      ∀ key : String, (build goLib ["A", "B", "C"]).Get goLib key =
        (build goLib ["C", "A", "B"]).Get goLib key) ∧
    (build goLib ["C", "A", "B"]).Nodes.map Node.Id = ["C", "B", "A"] :=
  ⟨goLib_sortSpec, by decide, by decide,
    build_order_independent goLib goLib_sortSpec ["A", "B", "C"] ["C", "A", "B"] (by decide)
      (by decide),
    by decide⟩

end consistent
